import Mathlib

/-!
Shallow embedding of the `snippet` package of `github.com/nickwells/snippet.mod`.

The embedding follows the current source of the repository:

* `snippet.go` — directive regular expressions, the `S` record, `parseSnippet`,
  `tidy`/`tidySlice`, `addTag`, `addMatchToSlices`, `addWholeMatchToSlice`,
  `readSnippetFile`;
* `snippetCache.go` — `Cache`, `Cache.Add`;
* `formatCfg.go` — `formatCfg`, `partsToShow`, `initPartsToShow`, `getTagKeys`;
* `list.go` — `checkExpectedSnippetsExist`.

Modelling conventions:

* A file content (`[]byte` split into lines by `bufio.Scanner`) is modelled as a
  `List String` of lines.
* The Go regular expressions are all of the shape
  `^(?i)\s*//\s*snippet:` optionally followed by `\s*(?:kw|alt1|...):\s*`.
  Matching such an anchored pattern with greedy `\s*` is deterministic
  maximal-munch (every `\s*` is followed by a non-space character class), and
  the ordered alternation `(?:a|b|...)` followed by `:` tries the alternatives
  left to right.  `commentTail`/`keywordTail`/`directiveTail` implement exactly
  this and return the remainder of the line after the match (the value
  `line[loc[1]:]` used by the Go code).  RE2 `\s` is `[\t\n\f\r ]`.
* The RE2 `(?i)` flag is modelled as ASCII case folding (`foldChar`); the
  directive keywords are all ASCII.
* Go maps (`tags`, the cache, `expectedBy`, `loc`) are modelled as association
  lists with the insertion discipline used by the code; boolean-valued sets
  (`parts`, `tags`, `constraints` of the listing configuration, whose entries
  are only ever set to `true`) are modelled as lists of keys.
* `sort.Strings` compares Go strings byte-wise, which on UTF-8 agrees with
  code-point lexicographic order; `listLe` implements that comparison and
  `sortStrings` sorts by it.
* File reading is modelled by a function `FS` from path to optional content; a
  `none` result stands for any read error.  `filepath.Join` is modelled as
  concatenation with a `/` separator (path cleaning is not modelled) and
  `filepath.IsAbs` as testing for a leading `/` (unix rule).
* `fmt.Errorf` messages are modelled as the corresponding string concatenation;
  the `%q` verb is modelled as wrapping in double quotes (escaping of special
  characters inside the quoted value is not modelled).  For the listing
  diagnostics (`errutil.ErrMap`) an error is modelled as the category together
  with the two format arguments of the message (`ErrEntry`).
-/

/-- RE2 whitespace class `\s`, namely `[\t\n\f\r ]`. -/
def re2IsSpace (c : Char) : Bool :=
  c == ' ' || c == '\t' || c == '\n' || c == '\x0c' || c == '\r'

/-- Whitespace accepted by Go `strings.TrimSpace` (`unicode.IsSpace`): the
Latin-1 space characters.  Code points above U+00FF of category Zs are not
modelled (none occurs in the repository or in the claims). -/
def uniIsSpace (c : Char) : Bool :=
  c == ' ' || c == '\t' || c == '\n' || c == '\x0b' || c == '\x0c' || c == '\r' ||
    c == '\x85' || c == '\xa0'

/-- ASCII case folding used to model the RE2 `(?i)` flag. -/
def foldChar (c : Char) : Char :=
  if 65 ≤ c.toNat && c.toNat ≤ 90 then Char.ofNat (c.toNat + 32) else c

/-- Case-insensitive literal match: consume `pat` (case-insensitively) from the
front of the input and return the remainder, or `none`. -/
def matchCI : List Char → List Char → Option (List Char)
  | [], rest => some rest
  | _ :: _, [] => none
  | p :: ps, c :: cs => if foldChar c = foldChar p then matchCI ps cs else none

/-- Greedy `\s*`: drop the maximal run of RE2 whitespace. -/
def dropSpaces (l : List Char) : List Char := l.dropWhile re2IsSpace

/-- Go `strings.TrimSpace` on a character list. -/
def trimSpace (l : List Char) : List Char :=
  ((l.dropWhile uniIsSpace).reverse.dropWhile uniIsSpace).reverse

/-- Matching of `commentREStr`, the anchored pattern `^(?i)\s*//\s*snippet:`
(`commentRE` in snippet.go).  Returns the remainder of the line after the
match. -/
def commentTail (l : List Char) : Option (List Char) :=
  match matchCI "//".data (dropSpaces l) with
  | none => none
  | some r => matchCI "snippet:".data (dropSpaces r)

/-- The `commentRE.FindStringIndex(l) != nil`. -/
def commentMatches (l : List Char) : Bool := (commentTail l).isSome

/-- Ordered alternation `(?:a₁|a₂|...)` followed by a literal `:` and a greedy
`\s*`: try the alternatives left to right; on success return the remainder
after the trailing whitespace run. -/
def keywordTail (alts : List String) (l : List Char) : Option (List Char) :=
  match alts with
  | [] => none
  | a :: rest =>
    match matchCI (a.data ++ [':']) l with
    | some r => some (dropSpaces r)
    | none => keywordTail rest l

/-- Matching of one entry of `snippetPartREs` (snippet.go `init`):
`commentREStr` + `\s*` + `(?:kw|alts):` + `\s*`.  Returns the remainder of the
line after the full match (`line[loc[1]:]`). -/
def directiveTail (alts : List String) (l : List Char) : Option (List Char) :=
  match commentTail l with
  | none => none
  | some r => keywordTail alts (dropSpaces r)

/-- The `ImportPart` with `altPartNames[ImportPart]`. -/
def importAlts : List String := ["imports", "import"]

/-- The `ExpectPart` with `altPartNames[ExpectPart]`. -/
def expectAlts : List String := ["expects", "expect", "comesbefore"]

/-- The `FollowPart` with `altPartNames[FollowPart]`. -/
def followAlts : List String := ["follows", "follow", "comesafter"]

/-- The `DocsPart` with `altPartNames[DocsPart]`. -/
def noteAlts : List String := ["note", "notes", "doc", "docs"]

/-- The `TagPart` with `altPartNames[TagPart]`. -/
def tagAlts : List String := ["tag", "tags"]

/-- The snippet record `S` of snippet.go. -/
structure S where
  name : String
  path : String
  text : List String
  docs : List String
  expects : List String
  imports : List String
  follows : List String
  tags : List (String × List String)
deriving DecidableEq

/-- Go map append `s.tags[tag] = append(s.tags[tag], value)`: append to the entry of an
existing key, or add a new key (Go map assignment, keys kept unique). -/
def addTagVal : List (String × List String) → String → String → List (String × List String)
  | [], k, v => [(k, [v])]
  | (k2, vs) :: rest, k, v =>
    if k2 = k then (k2, vs ++ [v]) :: rest else (k2, vs) :: addTagVal rest k v

/-- Go `strings.Cut(s, ":")`: the part before the first colon, the part after
it, and whether a colon was found. -/
def cutColon : List Char → List Char × List Char × Bool
  | [] => ([], [], false)
  | c :: cs =>
    if c = ':' then ([], cs, true)
    else
      let r := cutColon cs
      (c :: r.1, r.2.1, r.2.2)

/-- Body of `addMatchToSlices` after a successful regexp match: trim the
remainder; if non-empty it is the single value to append, otherwise nothing is
appended. -/
def trimmedPayload (rem : List Char) : List String :=
  let t := trimSpace rem
  if t = [] then [] else [String.mk t]

/-- Body of `S.addTag` after a successful regexp match on remainder `rem`:
trim, cut at the first colon, trim the tag name, trim the value when a colon
was present, and append to the tag map. -/
def addTagParsed (tags : List (String × List String)) (rem : List Char) :
    List (String × List String) :=
  let t := trimSpace rem
  let c := cutColon t
  let tagName := String.mk (trimSpace c.1)
  let tagVal := if c.2.2 then String.mk (trimSpace c.2.1) else String.mk c.2.1
  addTagVal tags tagName tagVal

/-- One iteration of the scanner loop of `parseSnippet`: a line matching
`commentRE` is tried against the import, expect, follow, note and tag patterns
in this order (a follow directive feeds both `expects` and `follows`, a note
directive appends the remainder untrimmed via `addWholeMatchToSlice`, a
matching line that fits no directive is dropped); any other line is appended
to `text`. -/
def processLine (s : S) (line : String) : S :=
  if commentMatches line.data then
    match directiveTail importAlts line.data with
    | some rem => { s with imports := s.imports ++ trimmedPayload rem }
    | none =>
      match directiveTail expectAlts line.data with
      | some rem => { s with expects := s.expects ++ trimmedPayload rem }
      | none =>
        match directiveTail followAlts line.data with
        | some rem =>
          { s with expects := s.expects ++ trimmedPayload rem,
                   follows := s.follows ++ trimmedPayload rem }
        | none =>
          match directiveTail noteAlts line.data with
          | some rem => { s with docs := s.docs ++ [String.mk rem] }
          | none =>
            match directiveTail tagAlts line.data with
            | some rem => { s with tags := addTagParsed s.tags rem }
            | none => s
  else { s with text := s.text ++ [line] }

/-- The record `parseSnippet` starts from (name, path set, everything else
empty). -/
def initS (fName sName : String) : S :=
  { name := sName, path := fName, text := [], docs := [], expects := [],
    imports := [], follows := [], tags := [] }

/-- The scanner loop of `parseSnippet` over all lines of the content. -/
def scanS (lines : List String) (fName sName : String) : S :=
  lines.foldl processLine (initS fName sName)

/-- Go string comparison (byte-wise, which on UTF-8 data coincides with
code-point lexicographic order), as used by `sort.Strings`. -/
def listLe : List Char → List Char → Bool
  | [], _ => true
  | _ :: _, [] => false
  | a :: as, b :: bs =>
    if a.toNat = b.toNat then listLe as bs else decide (a.toNat < b.toNat)

/-- Go `a <= b` on strings. -/
def sLe (a b : String) : Bool := listLe a.data b.data

/-- Relation form of `sLe`. -/
def sLeR (a b : String) : Prop := sLe a b = true

/-- Strict Go string comparison as a relation (`a < b`, that is not `b <= a`). -/
def sLtR (a b : String) : Prop := sLe b a = false

instance : DecidableRel sLeR := fun _ _ => inferInstanceAs (Decidable (_ = true))

instance : DecidableRel sLtR := fun _ _ => inferInstanceAs (Decidable (_ = false))

/-- The `sort.Strings`: sort in ascending Go string order.  (`sort.Strings` is an
unstable sort; on a linear order the sorted sequence is unique, so any sort
models it.) -/
def sortStrings (l : List String) : List String := List.insertionSort sLeR l

/-- The filtering loop of `tidySlice`: walk the sorted slice keeping entries
that are neither empty nor equal to the last kept entry (`last` starts as the
empty string). -/
def tidyLoop : String → List String → List String
  | _, [] => []
  | last, str :: rest =>
    if str ≠ "" ∧ str ≠ last then str :: tidyLoop str rest
    else tidyLoop last rest

/-- The `tidySlice` of snippet.go: sort, then remove blank and duplicate entries. -/
def tidySlice (l : List String) : List String := tidyLoop "" (sortStrings l)

/-- The `S.tidy` of snippet.go: tidy the imports, expects and follows slices. -/
def tidyS (s : S) : S :=
  { s with imports := tidySlice s.imports, expects := tidySlice s.expects,
           follows := tidySlice s.follows }

/-- The `%q` verb of `fmt`, modelled as wrapping in double quotes. -/
def quoted (s : String) : String := "\"" ++ s ++ "\""

/-- The error of `parseSnippet` for a snippet with no text and no imports. -/
def emptySnippetErr (sName fName : String) : String :=
  "snippet " ++ quoted sName ++ " (" ++ fName ++ ") has no text and no imports"

/-- The `parseSnippet` of snippet.go on content already split into lines: scan the
lines, tidy the record, and fail exactly when the text and the imports are
both empty. -/
def parseSnippet (lines : List String) (fName sName : String) : Except String S :=
  if (tidyS (scanS lines fName sName)).text = [] ∧
      (tidyS (scanS lines fName sName)).imports = [] then
    Except.error (emptySnippetErr sName fName)
  else Except.ok (tidyS (scanS lines fName sName))

/-- Whether an `Except` result is an error. -/
def isErrE (e : Except String S) : Bool :=
  match e with
  | Except.error _ => true
  | Except.ok _ => false

instance : DecidableEq (Except String S)
  | Except.error x, Except.error y => decidable_of_iff (x = y) (by simp)
  | Except.error _, Except.ok _ => Decidable.isFalse (by simp)
  | Except.ok _, Except.error _ => Decidable.isFalse (by simp)
  | Except.ok x, Except.ok y => decidable_of_iff (x = y) (by simp)

/-- The file system, as a map from path name to content (split into lines); a
`none` result models any read error. -/
abbrev FS : Type := String → Option (List String)

/-- The `filepath.IsAbs` (unix): the path starts with a slash. -/
def isAbs (p : String) : Bool :=
  match p.data with
  | '/' :: _ => true
  | _ => false

/-- The `filepath.Join(dir, name)` modelled as `dir + "/" + name` (cleaning of the
resulting path is not modelled). -/
def joinPath (dir name : String) : String := dir ++ "/" ++ name

/-- Go `strings.Join`. -/
def goJoin (sep : String) : List String → String
  | [] => ""
  | [x] => x
  | x :: y :: xs => x ++ sep ++ goJoin sep (y :: xs)

/-- The loop of `readSnippetFile` over the snippet directories: the first
directory whose joined path reads successfully wins. -/
def firstHit (fs : FS) : List String → String → Option (List String × String)
  | [], _ => none
  | d :: ds, n =>
    match fs (joinPath d n) with
    | some content => some (content, joinPath d n)
    | none => firstHit fs ds n

/-- A read error for an absolute path (the OS error text is not modelled; no
claim depends on it). -/
def readFileErr (p : String) : String := "open " ++ p ++ ": read error"

/-- The `readSnippetFile` of snippet.go: absolute names are read directly; a
relative name needs a non-empty directory list and is searched in order, with
the two not-found messages of the source. -/
def readSnippetFile (fs : FS) (dirs : List String) (sName : String) :
    Except String (List String × String) :=
  if isAbs sName then
    match fs sName with
    | some content => Except.ok (content, sName)
    | none => Except.error (readFileErr sName)
  else if dirs = [] then
    Except.error "there are no snippet directories to search"
  else
    match firstHit fs dirs sName with
    | some hit => Except.ok hit
    | none =>
      match dirs with
      | [d] =>
        Except.error
          ("snippet " ++ quoted sName ++ " is not in the snippet directory: " ++ quoted d)
      | _ =>
        Except.error
          ("snippet " ++ quoted sName ++ " is not in any snippet directory: \"" ++
            goJoin "\", \"" dirs ++ "\"")

/-- The snippet cache (`Cache` of snippetCache.go), a map from name to record. -/
abbrev Cache : Type := List (String × S)

/-- Go map lookup on the cache. -/
def lookupC : Cache → String → Option S
  | [], _ => none
  | (k, v) :: r, n => if k = n then some v else lookupC r n

/-- Go map assignment on the cache. -/
def cacheInsert : Cache → String → S → Cache
  | [], n, s => [(n, s)]
  | (k, v) :: r, n, s => if k = n then (n, s) :: r else (k, v) :: cacheInsert r n s

/-- The `Cache.Add` of snippetCache.go: return a cached entry unchanged; otherwise
resolve and parse the file, storing the record only on success. -/
def cacheAdd (fs : FS) (c : Cache) (dirs : List String) (sName : String) :
    Except String S × Cache :=
  match lookupC c sName with
  | some s => (Except.ok s, c)
  | none =>
    match readSnippetFile fs dirs sName with
    | Except.error e => (Except.error e, c)
    | Except.ok (content, fName) =>
      match parseSnippet content fName sName with
      | Except.error e => (Except.error e, c)
      | Except.ok s => (Except.ok s, cacheInsert c sName s)

/-- The `NamePart`. -/
def NamePart : String := "name"

/-- The `PathPart`. -/
def PathPart : String := "path"

/-- The `TextPart`. -/
def TextPart : String := "text"

/-- The `DocsPart`. -/
def DocsPart : String := "note"

/-- The `ImportPart`. -/
def ImportPart : String := "imports"

/-- The `ExpectPart`. -/
def ExpectPart : String := "expects"

/-- The `FollowPart`. -/
def FollowPart : String := "follows"

/-- The `TagPart`. -/
def TagPart : String := "tag"

/-- The `nameIndent` of formatCfg.go. -/
def nameIndent : Nat := 4

/-- The `dfltIndent` of formatCfg.go. -/
def dfltIndent : Nat := 8

/-- One entry of the list built by `initPartsToShow` (`partsToShow` of
formatCfg.go; the Go zero value of `indent` is `0`). -/
structure PartsToShow where
  intro : String
  indent : Nat
  values : List String
deriving DecidableEq

/-- The `formatCfg` of formatCfg.go.  The boolean-valued maps `parts` and `tags`
(whose entries are only ever set to `true`) are modelled as key lists; map
lookup is membership and `len(m) == 0` is emptiness of the list. -/
structure FormatCfg where
  parts : List String
  tags : List String
  hideIntro : Bool

/-- The `expectedParts` loop of `initPartsToShow`: the expects values whose
name is not also in `follows`. -/
def expectedPartsOf (s : S) : List String :=
  s.expects.filter (fun e => !(s.follows.contains e))

/-- The `getTagKeys` of formatCfg.go: the sorted tag names. -/
def getTagKeys (s : S) : List String := sortStrings (s.tags.map Prod.fst)

/-- Go map lookup `s.tags[k]` (zero value `[]` when absent). -/
def lookupTag (s : S) (k : String) : List String :=
  match s.tags.find? (fun p => p.1 = k) with
  | some p => p.2
  | none => []

/-- The `initPartsToShow` of formatCfg.go: build, in order, the parts of the
snippet selected by the configuration (everything except path, tag names and
text when both the parts set and the tags set are empty). -/
def initPartsToShow (fc : FormatCfg) (s : S) : List PartsToShow :=
  let partsAndTagsEmpty := fc.parts.isEmpty && fc.tags.isEmpty
  (if partsAndTagsEmpty || fc.parts.contains NamePart then
    [⟨"", nameIndent, [s.name]⟩] else [])
  ++ (if fc.parts.contains PathPart then [⟨"Pathname:", 0, [s.path]⟩] else [])
  ++ (if partsAndTagsEmpty || fc.parts.contains DocsPart then
    [⟨"Note:", 0, s.docs⟩] else [])
  ++ (if partsAndTagsEmpty || fc.parts.contains ImportPart then
    [⟨"Imports:", 0, s.imports⟩] else [])
  ++ (if partsAndTagsEmpty || fc.parts.contains FollowPart then
    [⟨"Follows:", 0, s.follows⟩] else [])
  ++ (if partsAndTagsEmpty || fc.parts.contains ExpectPart then
    [⟨"Expects:", 0, expectedPartsOf s⟩] else [])
  ++ (if fc.parts.contains TagPart then [⟨"Tags:", 0, getTagKeys s⟩] else [])
  ++ (getTagKeys s).filterMap (fun k =>
      if partsAndTagsEmpty || fc.tags.contains k then
        some ⟨k ++ ":", 0, lookupTag s k⟩
      else none)
  ++ (if fc.parts.contains TextPart then [⟨"Text:", 0, s.text⟩] else [])

/-- A diagnostic recorded on the `errutil.ErrMap`: the category passed to
`AddError` together with the two format arguments of the message
`snippet %q does not exist but is expected by %q` (the missing name, and the
names of the expecting snippets joined by a comma). -/
structure ErrEntry where
  category : String
  missing : String
  expecters : String
deriving DecidableEq

/-- The diagnostic emitted by `checkExpectedSnippetsExist` for one missing
expected name. -/
def mkMissingEntry (k : String) (expectedBy : List String) : ErrEntry :=
  ⟨"Missing expected snippet", k, goJoin ", " expectedBy⟩

/-- Go map lookup `expectedBy[k]` (zero value `[]`). -/
def lookupEB : List (String × List String) → String → List String
  | [], _ => []
  | (k, v) :: r, n => if k = n then v else lookupEB r n

/-- The `checkExpectedSnippetsExist` of list.go: with any constraint configured the
validation is skipped; otherwise walk the sorted keys of `expectedBy` and emit
one diagnostic for each key with no entry in the location map. -/
def checkExpectedSnippetsExist (constraints : List String)
    (expectedBy : List (String × List String)) (loc : List (String × String)) :
    List ErrEntry :=
  if constraints.length > 0 then []
  else
    let ebKeys := sortStrings (expectedBy.map Prod.fst)
    ebKeys.foldl
      (fun errs k =>
        if (loc.map Prod.fst).contains k then errs
        else errs ++ [mkMissingEntry k (lookupEB expectedBy k)])
      []

/-- The sorted missing expected names: keys of `expectedBy` not in the
location map. -/
def missingKeys (expectedBy : List (String × List String))
    (loc : List (String × String)) : List String :=
  (sortStrings (expectedBy.map Prod.fst)).filter
    (fun k => !((loc.map Prod.fst).contains k))

/-- A directive line built from a keyword and the rest of the line. -/
def mkDirLine (k : String) (rest : String) : String :=
  "// snippet: " ++ k ++ ":" ++ rest

/-! ### Order lemmas for the Go string comparison -/

theorem char_toNat_inj {a b : Char} (h : a.toNat = b.toNat) : a = b :=
  Char.ext (UInt32.ext_iff.mpr h)

theorem listLe_total (a b : List Char) : listLe a b = true ∨ listLe b a = true := by
  induction a generalizing b with
  | nil => left; rfl
  | cons x xs ih =>
    cases b with
    | nil => right; rfl
    | cons y ys =>
      by_cases h : x.toNat = y.toNat
      · simp only [listLe, if_pos h, if_pos h.symm]
        exact ih ys
      · have h2 : ¬ y.toNat = x.toNat := fun hh => h hh.symm
        rcases Nat.lt_or_ge x.toNat y.toNat with hlt | hge
        · left; simp [listLe, if_neg h, hlt]
        · have hgt : y.toNat < x.toNat := lt_of_le_of_ne hge h2
          right; simp [listLe, if_neg h2, hgt]

theorem listLe_antisymm {a b : List Char} (h1 : listLe a b = true)
    (h2 : listLe b a = true) : a = b := by
  induction a generalizing b with
  | nil =>
    cases b with
    | nil => rfl
    | cons y ys => simp [listLe] at h2
  | cons x xs ih =>
    cases b with
    | nil => simp [listLe] at h1
    | cons y ys =>
      by_cases h : x.toNat = y.toNat
      · have hx : x = y := char_toNat_inj h
        subst hx
        simp only [listLe, if_pos rfl] at h1 h2
        rw [ih h1 h2]
      · have h2n : ¬ y.toNat = x.toNat := fun hh => h hh.symm
        rw [listLe, if_neg h] at h1
        rw [listLe, if_neg h2n] at h2
        simp only [decide_eq_true_eq] at h1 h2
        exact absurd h2 (Nat.lt_asymm h1)

theorem listLe_trans {a b c : List Char} (h1 : listLe a b = true)
    (h2 : listLe b c = true) : listLe a c = true := by
  induction a generalizing b c with
  | nil => rfl
  | cons x xs ih =>
    cases b with
    | nil => simp [listLe] at h1
    | cons y ys =>
      cases c with
      | nil => simp [listLe] at h2
      | cons z zs =>
        rw [listLe] at h1 h2 ⊢
        by_cases hxy : x.toNat = y.toNat
        · rw [if_pos hxy] at h1
          by_cases hyz : y.toNat = z.toNat
          · rw [if_pos hyz] at h2
            rw [if_pos (hxy.trans hyz)]
            exact ih h1 h2
          · rw [if_neg hyz] at h2
            simp only [decide_eq_true_eq] at h2
            have hxz : ¬ x.toNat = z.toNat := by omega
            rw [if_neg hxz]
            simp only [decide_eq_true_eq]
            omega
        · rw [if_neg hxy] at h1
          simp only [decide_eq_true_eq] at h1
          by_cases hyz : y.toNat = z.toNat
          · have hxz : ¬ x.toNat = z.toNat := by omega
            rw [if_neg hxz]
            simp only [decide_eq_true_eq]
            omega
          · rw [if_neg hyz] at h2
            simp only [decide_eq_true_eq] at h2
            have hxz : ¬ x.toNat = z.toNat := by omega
            rw [if_neg hxz]
            simp only [decide_eq_true_eq]
            omega

theorem sLeR_antisymm {a b : String} (h1 : sLeR a b) (h2 : sLeR b a) : a = b := by
  rcases a with ⟨la⟩
  rcases b with ⟨lb⟩
  have h : la = lb := listLe_antisymm h1 h2
  simp [h]

theorem sLe_refl (a : String) : sLeR a a := by
  show listLe a.data a.data = true
  induction a.data with
  | nil => rfl
  | cons x xs ih => simp only [listLe, if_pos rfl]; exact ih

theorem sLe_empty (y : String) : sLeR "" y := by
  show listLe "".data y.data = true
  rw [listLe]

theorem sLtR_of_le_ne {a b : String} (hle : sLeR a b) (hne : a ≠ b) : sLtR a b := by
  cases h : sLe b a with
  | false => exact h
  | true => exact absurd (sLeR_antisymm hle h) hne

theorem sLtR_le {a b : String} (h : sLtR a b) : sLeR a b := by
  rcases listLe_total a.data b.data with h1 | h1
  · exact h1
  · exact absurd h1 (by simp [sLtR, sLe] at h; simp [sLe, h])

theorem sLtR_ne {a b : String} (h : sLtR a b) : a ≠ b := by
  intro he
  subst he
  exact absurd (sLe_refl a) (by simp [sLtR] at h; simp [sLeR, h])

/-! ### Lemmas about sortStrings and tidySlice -/

theorem sorted_sortStrings (l : List String) : (sortStrings l).Sorted sLeR :=
  @List.sorted_insertionSort String sLeR _
    ⟨fun a b => listLe_total a.data b.data⟩
    ⟨fun _ _ _ h1 h2 => listLe_trans h1 h2⟩ l

theorem perm_sortStrings (l : List String) : List.Perm (sortStrings l) l :=
  List.perm_insertionSort _ l

theorem mem_sortStrings {l : List String} {x : String} :
    x ∈ sortStrings l ↔ x ∈ l :=
  (perm_sortStrings l).mem_iff

theorem sortStrings_eq_self {l : List String} (h : l.Sorted sLeR) :
    sortStrings l = l :=
  List.Sorted.insertionSort_eq h

theorem mem_tidyLoop {l : List String} {last x : String} (hs : l.Sorted sLeR)
    (hlb : ∀ y ∈ l, sLeR last y) :
    x ∈ tidyLoop last l ↔ (x ∈ l ∧ x ≠ "" ∧ x ≠ last) := by
  induction l generalizing last with
  | nil => simp [tidyLoop]
  | cons a rest ih =>
    rw [List.sorted_cons] at hs
    obtain ⟨ha, hrest⟩ := hs
    by_cases hcond : a ≠ "" ∧ a ≠ last
    · rw [tidyLoop, if_pos hcond]
      have ihh := ih hrest ha
      constructor
      · intro hx
        rcases List.mem_cons.mp hx with rfl | hx2
        · exact ⟨List.mem_cons_self _ _, hcond.1, hcond.2⟩
        · obtain ⟨hmem, hne, hnea⟩ := ihh.mp hx2
          refine ⟨List.mem_cons_of_mem _ hmem, hne, ?_⟩
          intro hxlast
          subst hxlast
          exact hcond.2 (sLeR_antisymm (hlb a (List.mem_cons_self _ _)) (ha x hmem)).symm
      · rintro ⟨hx, hne, hnlast⟩
        rcases List.mem_cons.mp hx with rfl | hx2
        · exact List.mem_cons_self _ _
        · by_cases hxa : x = a
          · subst hxa
            exact List.mem_cons_self _ _
          · exact List.mem_cons_of_mem _ (ihh.mpr ⟨hx2, hne, hxa⟩)
    · rw [tidyLoop, if_neg hcond]
      push_neg at hcond
      have ihh := ih hrest
        (fun y hy => hlb y (List.mem_cons_of_mem _ hy))
      rw [ihh]
      constructor
      · rintro ⟨hx, h1, h2⟩
        exact ⟨List.mem_cons_of_mem _ hx, h1, h2⟩
      · rintro ⟨hx, h1, h2⟩
        rcases List.mem_cons.mp hx with rfl | hx2
        · exact absurd (hcond h1) h2
        · exact ⟨hx2, h1, h2⟩

theorem mem_tidySlice {l : List String} {x : String} :
    x ∈ tidySlice l ↔ (x ∈ l ∧ x ≠ "") := by
  unfold tidySlice
  rw [mem_tidyLoop (sorted_sortStrings l) (fun y _ => sLe_empty y)]
  simp [mem_sortStrings, and_assoc]

theorem sorted_tidyLoop {l : List String} {last : String} (hs : l.Sorted sLeR)
    (hlb : ∀ y ∈ l, sLeR last y) : (tidyLoop last l).Sorted sLtR := by
  induction l generalizing last with
  | nil => simp [tidyLoop]
  | cons a rest ih =>
    rw [List.sorted_cons] at hs
    obtain ⟨ha, hrest⟩ := hs
    by_cases hcond : a ≠ "" ∧ a ≠ last
    · rw [tidyLoop, if_pos hcond, List.sorted_cons]
      refine ⟨?_, ih hrest ha⟩
      intro b hb
      obtain ⟨hmem, _, hbna⟩ := (mem_tidyLoop hrest ha).mp hb
      exact sLtR_of_le_ne (ha b hmem) (Ne.symm hbna)
    · rw [tidyLoop, if_neg hcond]
      exact ih hrest (fun y hy => hlb y (List.mem_cons_of_mem _ hy))

theorem tidySlice_sorted (l : List String) : (tidySlice l).Sorted sLtR :=
  sorted_tidyLoop (sorted_sortStrings l) (fun y _ => sLe_empty y)

theorem tidyLoop_id {l : List String} {last : String} (hs : l.Sorted sLtR)
    (hne : ∀ y ∈ l, y ≠ "") (hnl : ∀ y ∈ l, y ≠ last) : tidyLoop last l = l := by
  induction l generalizing last with
  | nil => rfl
  | cons a rest ih =>
    rw [List.sorted_cons] at hs
    rw [tidyLoop,
      if_pos ⟨hne a (List.mem_cons_self _ _), hnl a (List.mem_cons_self _ _)⟩]
    congr 1
    exact ih hs.2 (fun y hy => hne y (List.mem_cons_of_mem _ hy))
      (fun y hy => Ne.symm (sLtR_ne (hs.1 y hy)))

theorem tidySlice_idem (l : List String) : tidySlice (tidySlice l) = tidySlice l := by
  have hsorted : (tidySlice l).Sorted sLtR := tidySlice_sorted l
  have hle : (tidySlice l).Sorted sLeR := hsorted.imp (fun h => sLtR_le h)
  show tidyLoop "" (sortStrings (tidySlice l)) = tidySlice l
  rw [sortStrings_eq_self hle]
  exact tidyLoop_id hsorted (fun y hy => (mem_tidySlice.mp hy).2)
    (fun y hy => (mem_tidySlice.mp hy).2)

/-- C4: tidySlice is idempotent, its output is sorted in strictly ascending Go
string order (hence has no duplicate entries) and contains no empty string,
and on the input ["Z","","Z","Z","M","","","M","A"] it returns ["A","M","Z"]. -/
theorem c4_tidySlice_idempotent_sorted_dedup :
    (∀ l, tidySlice (tidySlice l) = tidySlice l)
    ∧ (∀ l, (tidySlice l).Sorted sLtR)
    ∧ (∀ l, (tidySlice l).Nodup)
    ∧ (∀ l, "" ∉ tidySlice l)
    ∧ tidySlice ["Z", "", "Z", "Z", "M", "", "", "M", "A"] = ["A", "M", "Z"] := by
  refine ⟨tidySlice_idem, tidySlice_sorted, ?_, ?_, by decide⟩
  · intro l
    exact (tidySlice_sorted l).imp (fun h => sLtR_ne h)
  · intro l h
    exact (mem_tidySlice.mp h).2 rfl

/-! ### Lemmas about the directive matcher -/

@[simp]
theorem data_mk (l : List Char) : (String.mk l).data = l := rfl

theorem dropWhile_all_append {p : Char → Bool} {ws : List Char} (l : List Char)
    (h : ∀ c ∈ ws, p c = true) :
    (ws ++ l).dropWhile p = l.dropWhile p := by
  induction ws with
  | nil => rfl
  | cons c cs ih =>
    rw [List.cons_append, List.dropWhile_cons, h c (List.mem_cons_self _ _), if_pos rfl]
    exact ih (fun d hd => h d (List.mem_cons_of_mem _ hd))

theorem matchCI_fold {pat v : List Char} (rest : List Char)
    (h : v.map foldChar = pat.map foldChar) :
    matchCI pat (v ++ rest) = some rest := by
  induction pat generalizing v with
  | nil =>
    have hv : v = [] := List.map_eq_nil_iff.mp h
    subst hv
    rfl
  | cons p ps ih =>
    cases v with
    | nil => simp at h
    | cons c cs =>
      simp only [List.map_cons, List.cons.injEq] at h
      rw [List.cons_append, matchCI, if_pos h.1]
      exact ih h.2

theorem foldChar_marker_head {v : List Char}
    (h : v.map foldChar = "snippet:".data.map foldChar) :
    ∃ c cs, v = c :: cs ∧ re2IsSpace c = false := by
  have hfold : "snippet:".data.map foldChar = "snippet:".data := by decide
  rw [hfold] at h
  have hdata : "snippet:".data = 's' :: "nippet:".data := rfl
  cases v with
  | nil =>
    rw [hdata] at h
    exact absurd h (by simp)
  | cons c cs =>
    refine ⟨c, cs, rfl, ?_⟩
    rw [hdata] at h
    simp only [List.map_cons, List.cons.injEq] at h
    cases hsp : re2IsSpace c with
    | false => rfl
    | true =>
      simp only [re2IsSpace, Bool.or_eq_true, beq_iff_eq] at hsp
      rcases hsp with (((hc | hc) | hc) | hc) | hc <;>
        (subst hc; exact absurd h.1 (by decide))

theorem commentTail_marker {ws1 ws2 v : List Char} (rest : List Char)
    (h1 : ∀ c ∈ ws1, re2IsSpace c = true) (h2 : ∀ c ∈ ws2, re2IsSpace c = true)
    (hv : v.map foldChar = "snippet:".data.map foldChar) :
    commentTail (ws1 ++ "//".data ++ ws2 ++ v ++ rest) = some rest := by
  obtain ⟨c, cs, rfl, hc⟩ := foldChar_marker_head hv
  have hslash : re2IsSpace '/' = false := by decide
  unfold commentTail dropSpaces
  simp only [List.append_assoc]
  rw [dropWhile_all_append _ h1]
  simp only [List.cons_append, List.nil_append]
  rw [List.dropWhile_cons, hslash]
  simp only [Bool.false_eq_true, if_false]
  show matchCI "snippet:".data
    (List.dropWhile re2IsSpace (ws2 ++ ((c :: cs) ++ rest))) = some rest
  rw [dropWhile_all_append _ h2, List.cons_append, List.dropWhile_cons, hc]
  simp only [Bool.false_eq_true, if_false]
  exact matchCI_fold rest hv

theorem processLine_of_commentTail_eq {l1 l2 r : List Char}
    (h1 : commentTail l1 = some r) (h2 : commentTail l2 = some r) (s : S) :
    processLine s (String.mk l1) = processLine s (String.mk l2) := by
  have e1 : commentMatches l1 = true := by simp [commentMatches, h1]
  have e2 : commentMatches l2 = true := by simp [commentMatches, h2]
  unfold processLine
  simp only [data_mk, e1, e2, if_true, directiveTail, h1, h2]

/-- C1: directive recognition is case-insensitive and synonym-closed.  Any
case variant of the `snippet:` marker token (with arbitrary whitespace in the
`\s*` positions of the pattern) is processed exactly as the canonical
lower-case marker, giving the same parsed record; and a directive line built
with any synonym keyword (notes/doc/docs for note, import for imports,
expect/comesbefore for expects, follow/comesafter for follows, tags for tag)
is processed exactly as the same line built with the canonical keyword. -/
theorem c1_marker_case_insensitive_and_synonyms :
    (∀ (s : S) (ws1 ws2 v rest : List Char),
        (∀ c ∈ ws1, re2IsSpace c = true) → (∀ c ∈ ws2, re2IsSpace c = true) →
        v.map foldChar = "snippet:".data.map foldChar →
        processLine s (String.mk (ws1 ++ "//".data ++ ws2 ++ v ++ rest)) =
          processLine s (String.mk (ws1 ++ "//".data ++ ws2 ++ "snippet:".data ++ rest)))
    ∧ (∀ (s : S) (rest : String),
        (processLine s (mkDirLine "notes" rest) = processLine s (mkDirLine "note" rest))
        ∧ (processLine s (mkDirLine "doc" rest) = processLine s (mkDirLine "note" rest))
        ∧ (processLine s (mkDirLine "docs" rest) = processLine s (mkDirLine "note" rest))
        ∧ (processLine s (mkDirLine "import" rest) = processLine s (mkDirLine "imports" rest))
        ∧ (processLine s (mkDirLine "expect" rest) = processLine s (mkDirLine "expects" rest))
        ∧ (processLine s (mkDirLine "comesbefore" rest) =
            processLine s (mkDirLine "expects" rest))
        ∧ (processLine s (mkDirLine "follow" rest) = processLine s (mkDirLine "follows" rest))
        ∧ (processLine s (mkDirLine "comesafter" rest) =
            processLine s (mkDirLine "follows" rest))
        ∧ (processLine s (mkDirLine "tags" rest) = processLine s (mkDirLine "tag" rest))) := by
  constructor
  · intro s ws1 ws2 v rest hw1 hw2 hv
    exact processLine_of_commentTail_eq
      (commentTail_marker rest hw1 hw2 hv)
      (commentTail_marker rest hw1 hw2 rfl) s
  · intro s rest
    exact ⟨rfl, rfl, rfl, rfl, rfl, rfl, rfl, rfl, rfl⟩

/-- Witness for C1: a fully upper-case marker with extra whitespace is parsed
exactly as the lower-case one. -/
theorem c1_witness :
    processLine (initS "f" "n")
        (String.mk ([' '] ++ "//".data ++ [' ', '\t'] ++ "SNIPPET:".data ++ " Note: hi".data)) =
      processLine (initS "f" "n")
        (String.mk ([' '] ++ "//".data ++ [' ', '\t'] ++ "snippet:".data ++ " Note: hi".data)) :=
  c1_marker_case_insensitive_and_synonyms.1 (initS "f" "n") [' '] [' ', '\t']
    "SNIPPET:".data " Note: hi".data (by decide) (by decide) (by decide)

/-- C7 counterexample: the note pattern ends in a greedy whitespace run, so the
whitespace after `note:` is consumed by the pattern and the leading whitespace
of the payload is NOT preserved: the line `// snippet: note:   indented` with
three spaces before the payload yields the docs entry `indented`, not
`   indented`. -/
theorem c7_counterexample :
    parseSnippet ["code", "// snippet: note:   indented"] "f" "n" =
      Except.ok ⟨"n", "f", ["code"], ["indented"], [], [], [], []⟩
    ∧ parseSnippet ["code", "// snippet: note:   indented"] "f" "n" ≠
      Except.ok ⟨"n", "f", ["code"], ["   indented"], [], [], [], []⟩ := by
  constructor
  · decide
  · decide

/-- C7 (amended): the text after the matched note pattern is appended to docs
verbatim, without trimming — so trailing whitespace is preserved and an empty
payload still appends an empty entry — but the pattern itself ends in `\s*`,
which consumes the whitespace that directly follows the keyword colon, so the
appended entry is the rest of the line with its leading whitespace removed. -/
theorem c7_note_payload_untrimmed :
    ∀ (s : S) (rest : String),
      ((processLine s (mkDirLine "note" rest)).docs =
        s.docs ++ [String.mk (dropSpaces rest.data)])
      ∧ ((processLine s (mkDirLine "note" "")).docs = s.docs ++ [""]) :=
  fun _ _ => ⟨rfl, rfl⟩

/-! ### Lemmas about the scanner loop -/

theorem processLine_text (s : S) (l : String) :
    (processLine s l).text = s.text ++ (if commentMatches l.data then [] else [l]) := by
  unfold processLine
  split
  next h => (repeat' split) <;> simp [h]
  next h => simp [h]

theorem processLine_imports (s : S) (l : String) :
    (processLine s l).imports = s.imports ++
      (if commentMatches l.data then
        (match directiveTail importAlts l.data with
         | some rem => trimmedPayload rem
         | none => []) else []) := by
  unfold processLine
  split
  next h =>
    split
    next rem h1 => simp [h, h1]
    next h1 => (repeat' split) <;> simp [h, h1]
  next h => simp [h]

theorem foldl_text_imports_agree :
    ∀ (lines : List String) (s t : S), s.text = t.text → s.imports = t.imports →
      (lines.foldl processLine s).text = (lines.foldl processLine t).text ∧
      (lines.foldl processLine s).imports = (lines.foldl processLine t).imports := by
  intro lines
  induction lines with
  | nil => exact fun s t h1 h2 => ⟨h1, h2⟩
  | cons l ls ih =>
    intro s t h1 h2
    apply ih
    · rw [processLine_text, processLine_text, h1]
    · rw [processLine_imports, processLine_imports, h2]

/-- C2: parseSnippet fails exactly when, after the scan, the text is empty and
the tidied imports are empty; and inserting any marker line that is not an
importing directive (in particular any note, expect, follow or tag directive,
or a dropped unknown marker line) anywhere in the content never changes
whether parsing fails. -/
theorem c2_parse_failure_iff_empty :
    ∀ (f n : String),
      (∀ lines, isErrE (parseSnippet lines f n) = true ↔
        ((scanS lines f n).text = [] ∧ tidySlice (scanS lines f n).imports = []))
      ∧ (∀ (pre post : List String) (d : String), commentMatches d.data = true →
          directiveTail importAlts d.data = none →
          isErrE (parseSnippet (pre ++ d :: post) f n) =
            isErrE (parseSnippet (pre ++ post) f n)) := by
  have hiff : ∀ (lines : List String) (f n : String),
      isErrE (parseSnippet lines f n) = true ↔
        ((scanS lines f n).text = [] ∧ tidySlice (scanS lines f n).imports = []) := by
    intro lines f n
    unfold parseSnippet
    split
    next h => exact iff_of_true rfl h
    next h => exact iff_of_false (by simp [isErrE]) h
  intro f n
  refine ⟨fun lines => hiff lines f n, ?_⟩
  intro pre post d hcm himp
  have ht : (processLine (pre.foldl processLine (initS f n)) d).text =
      (pre.foldl processLine (initS f n)).text := by
    simp [processLine_text, hcm]
  have hi : (processLine (pre.foldl processLine (initS f n)) d).imports =
      (pre.foldl processLine (initS f n)).imports := by
    simp [processLine_imports, hcm, himp]
  have hsc := foldl_text_imports_agree post
    (processLine (pre.foldl processLine (initS f n)) d)
    (pre.foldl processLine (initS f n)) ht hi
  have heq : ((scanS (pre ++ d :: post) f n).text = [] ∧
        tidySlice (scanS (pre ++ d :: post) f n).imports = []) ↔
      ((scanS (pre ++ post) f n).text = [] ∧
        tidySlice (scanS (pre ++ post) f n).imports = []) := by
    unfold scanS
    rw [List.foldl_append, List.foldl_append, List.foldl_cons, hsc.1, hsc.2]
  have hA := hiff (pre ++ d :: post) f n
  have hB := hiff (pre ++ post) f n
  have hab := hA.trans (heq.trans hB.symm)
  cases hx : isErrE (parseSnippet (pre ++ d :: post) f n) <;>
    cases hy : isErrE (parseSnippet (pre ++ post) f n) <;> simp_all

/-- Witness for C2: inserting a note directive into empty content leaves the
parse failure unchanged. -/
theorem c2_witness :
    isErrE (parseSnippet ([] ++ "// snippet: note: hi" :: []) "f" "n") =
      isErrE (parseSnippet ([] ++ []) "f" "n") :=
  (c2_parse_failure_iff_empty "f" "n").2 [] [] "// snippet: note: hi"
    (by decide) (by decide)

theorem processLine_follows_sub {s : S} (l : String)
    (hinv : ∀ x ∈ s.follows, x ∈ s.expects) :
    ∀ x ∈ (processLine s l).follows, x ∈ (processLine s l).expects := by
  intro x
  unfold processLine
  split
  · split
    · exact fun hx => hinv x hx
    · split
      · exact fun hx => List.mem_append_left _ (hinv x hx)
      · split
        · intro hx
          rcases List.mem_append.mp hx with h | h
          · exact List.mem_append_left _ (hinv x h)
          · exact List.mem_append_right _ h
        · split
          · exact fun hx => hinv x hx
          · split
            · exact fun hx => hinv x hx
            · exact fun hx => hinv x hx
  · exact fun hx => hinv x hx

theorem scan_follows_sub (lines : List String) :
    ∀ (s : S), (∀ x ∈ s.follows, x ∈ s.expects) →
      ∀ x ∈ (lines.foldl processLine s).follows,
        x ∈ (lines.foldl processLine s).expects := by
  induction lines with
  | nil => exact fun s h => h
  | cons l ls ih => exact fun s h => ih _ (processLine_follows_sub l h)

/-- C3: every record produced by parseSnippet has its follows contained in its
expects: a follow directive feeds both slices and both are tidied by the same
tidySlice, so membership carries over. -/
theorem c3_follows_subset_expects :
    ∀ (lines : List String) (f n : String) (s : S),
      parseSnippet lines f n = Except.ok s → ∀ x ∈ s.follows, x ∈ s.expects := by
  intro lines f n s hok x hx
  unfold parseSnippet at hok
  split at hok
  · exact absurd hok (by simp)
  · simp only [Except.ok.injEq] at hok
    subst hok
    have h1 := mem_tidySlice.mp hx
    have h2 := scan_follows_sub lines (initS f n)
      (fun y hy => absurd hy (List.not_mem_nil y)) x h1.1
    exact mem_tidySlice.mpr ⟨h2, h1.2⟩

/-- Witness for C3: a snippet with a single follows directive has that name in
both follows and expects. -/
theorem c3_witness :
    "a" ∈ (S.mk "n" "f" ["code"] [] ["a"] [] ["a"] []).expects :=
  c3_follows_subset_expects ["code", "// snippet: follows: a"] "f" "n"
    (S.mk "n" "f" ["code"] [] ["a"] [] ["a"] []) (by decide) "a" (by decide)

/-! ### Lemmas about file resolution and the cache -/

theorem firstHit_all_none {fs : FS} {dirs : List String} {n : String}
    (h : ∀ d ∈ dirs, fs (joinPath d n) = none) : firstHit fs dirs n = none := by
  induction dirs with
  | nil => rfl
  | cons d ds ih =>
    simp [firstHit, h d (List.mem_cons_self _ _),
      ih (fun x hx => h x (List.mem_cons_of_mem _ hx))]

theorem firstHit_found {fs : FS} {n : String} (pre : List String) {d : String}
    {content : List String} (post : List String)
    (hpre : ∀ p ∈ pre, fs (joinPath p n) = none)
    (hd : fs (joinPath d n) = some content) :
    firstHit fs (pre ++ d :: post) n = some (content, joinPath d n) := by
  induction pre with
  | nil => simp [firstHit, hd]
  | cons p ps ih =>
    simp [firstHit, hpre p (List.mem_cons_self _ _),
      ih (fun x hx => hpre x (List.mem_cons_of_mem _ hx))]

/-- C6: the failure cases of readSnippetFile.  A relative name with no
directories fails with the fixed message; a relative name missed by the single
configured directory fails with the singular message naming it; a relative
name missed by two or more directories fails with the plural message joining
all of them; and the directories are tried in order, the first hit winning
(directories before the hit may fail to read, those after it are never
consulted). -/
theorem c6_readSnippetFile_failures :
    ∀ (fs : FS) (n : String),
      (isAbs n = false → readSnippetFile fs [] n =
        Except.error "there are no snippet directories to search")
      ∧ (∀ d, isAbs n = false → fs (joinPath d n) = none →
          readSnippetFile fs [d] n = Except.error
            ("snippet " ++ quoted n ++ " is not in the snippet directory: " ++ quoted d))
      ∧ (∀ d1 d2 ds, isAbs n = false →
          (∀ d ∈ d1 :: d2 :: ds, fs (joinPath d n) = none) →
          readSnippetFile fs (d1 :: d2 :: ds) n = Except.error
            ("snippet " ++ quoted n ++ " is not in any snippet directory: \"" ++
              goJoin "\", \"" (d1 :: d2 :: ds) ++ "\""))
      ∧ (∀ (pre : List String) (d : String) (post content : List String),
          isAbs n = false → (∀ p ∈ pre, fs (joinPath p n) = none) →
          fs (joinPath d n) = some content →
          readSnippetFile fs (pre ++ d :: post) n =
            Except.ok (content, joinPath d n)) := by
  intro fs n
  refine ⟨?_, ?_, ?_, ?_⟩
  · intro habs
    simp [readSnippetFile, habs]
  · intro d habs hd
    have hnone : firstHit fs [d] n = none := by
      apply firstHit_all_none
      intro x hx
      rw [List.mem_singleton] at hx
      subst hx
      exact hd
    simp [readSnippetFile, habs, hnone]
  · intro d1 d2 ds habs hall
    have hnone : firstHit fs (d1 :: d2 :: ds) n = none := firstHit_all_none hall
    simp [readSnippetFile, habs, hnone]
  · intro pre d post content habs hpre hd
    have hfound := firstHit_found pre post hpre hd
    simp [readSnippetFile, habs, hfound]

/-- Witness for C6: a single empty directory produces the singular
not-found message. -/
theorem c6_witness :
    readSnippetFile (fun _ => none) ["sd"] "a" = Except.error
      ("snippet " ++ quoted "a" ++ " is not in the snippet directory: " ++ quoted "sd") :=
  (c6_readSnippetFile_failures (fun _ => none) "a").2.1 "sd" (by decide) rfl

theorem lookupC_cacheInsert (c : Cache) (n : String) (s : S) :
    lookupC (cacheInsert c n s) n = some s := by
  induction c with
  | nil => simp [cacheInsert, lookupC]
  | cons p r ih =>
    obtain ⟨k, v⟩ := p
    by_cases hk : k = n
    · subst hk
      simp [cacheInsert, lookupC]
    · simp [cacheInsert, lookupC, hk, ih]

/-- C5: Cache.Add is idempotent and atomic on error.  A cached name is
returned unchanged with the cache untouched (for any file system, so no file
is read); any error leaves the cache exactly as it was (no nil or partial
entry); a successful add of an uncached name stores exactly the parsed record
under that name; and after any successful add, a second add of the same name
returns the same record and cache for an arbitrary (even empty) file
system. -/
theorem c5_cache_add_idempotent_atomic :
    ∀ (fs : FS) (c : Cache) (dirs : List String) (n : String),
      (∀ s, lookupC c n = some s → cacheAdd fs c dirs n = (Except.ok s, c))
      ∧ (∀ e c2, cacheAdd fs c dirs n = (Except.error e, c2) → c2 = c)
      ∧ (∀ s c2, lookupC c n = none → cacheAdd fs c dirs n = (Except.ok s, c2) →
          c2 = cacheInsert c n s ∧ lookupC c2 n = some s)
      ∧ (∀ s c2 (fs2 : FS), cacheAdd fs c dirs n = (Except.ok s, c2) →
          cacheAdd fs2 c2 dirs n = (Except.ok s, c2)) := by
  intro fs c dirs n
  have hcached : ∀ s, lookupC c n = some s → cacheAdd fs c dirs n = (Except.ok s, c) := by
    intro s hs
    unfold cacheAdd
    rw [hs]
  have herr : ∀ e c2, cacheAdd fs c dirs n = (Except.error e, c2) → c2 = c := by
    intro e c2 h
    unfold cacheAdd at h
    rcases hl : lookupC c n with _ | s0 <;> rw [hl] at h
    · rcases hr : readSnippetFile fs dirs n with e2 | ⟨content, fName⟩ <;>
        simp only [hr] at h
      · simp only [Prod.mk.injEq] at h
        exact h.2.symm
      · rcases hp : parseSnippet content fName n with e2 | s2 <;> simp only [hp] at h
        · simp only [Prod.mk.injEq] at h
          exact h.2.symm
        · simp at h
    · simp at h
  have hstore : ∀ s c2, lookupC c n = none → cacheAdd fs c dirs n = (Except.ok s, c2) →
      c2 = cacheInsert c n s ∧ lookupC c2 n = some s := by
    intro s c2 hnone h
    unfold cacheAdd at h
    rw [hnone] at h
    rcases hr : readSnippetFile fs dirs n with e2 | ⟨content, fName⟩ <;>
      simp only [hr] at h
    · simp at h
    · rcases hp : parseSnippet content fName n with e2 | s2 <;> simp only [hp] at h
      · simp at h
      · simp only [Prod.mk.injEq, Except.ok.injEq] at h
        obtain ⟨heq, h2⟩ := h
        subst heq
        refine ⟨h2.symm, ?_⟩
        rw [← h2]
        exact lookupC_cacheInsert c n _
  refine ⟨hcached, herr, hstore, ?_⟩
  intro s c2 fs2 h
  rcases hl : lookupC c n with _ | s0
  · obtain ⟨hc2, hli⟩ := hstore s c2 hl h
    unfold cacheAdd
    rw [hli]
  · have h1 := hcached s0 hl
    rw [h1] at h
    simp only [Prod.mk.injEq, Except.ok.injEq] at h
    obtain ⟨rfl, rfl⟩ := h
    unfold cacheAdd
    rw [hl]

/-- Witness for C5: after a successful add, a second add of the same name on
an empty file system returns the same record and leaves the cache unchanged. -/
theorem c5_witness :
    cacheAdd (fun _ => none) [("a", S.mk "a" "d/a" ["code"] [] [] [] [] [])] ["d"] "a" =
      (Except.ok (S.mk "a" "d/a" ["code"] [] [] [] [] []),
        [("a", S.mk "a" "d/a" ["code"] [] [] [] [] [])]) :=
  (c5_cache_add_idempotent_atomic
      (fun p => if p = "d/a" then some ["code"] else none) [] ["d"] "a").2.2.2
    (S.mk "a" "d/a" ["code"] [] [] [] [] [])
    [("a", S.mk "a" "d/a" ["code"] [] [] [] [] [])]
    (fun _ => none) (by decide)

/-! ### Lemmas about the render configuration -/

theorem filterMap_some_eq_map {α β : Type} (f : α → β) (l : List α) :
    l.filterMap (fun a => some (f a)) = l.map f := by
  induction l with
  | nil => rfl
  | cons a l ih => simp [List.filterMap_cons, ih]

theorem filterMap_none_eq_nil {α β : Type} (l : List α) :
    l.filterMap (fun _ => (none : Option β)) = [] := by
  induction l with
  | nil => rfl
  | cons a l ih => simp [List.filterMap_cons, ih]

theorem initPartsToShow_default (b : Bool) (s : S) :
    initPartsToShow ⟨[], [], b⟩ s =
      [⟨"", nameIndent, [s.name]⟩, ⟨"Note:", 0, s.docs⟩, ⟨"Imports:", 0, s.imports⟩,
       ⟨"Follows:", 0, s.follows⟩, ⟨"Expects:", 0, expectedPartsOf s⟩]
      ++ (getTagKeys s).map (fun k => ⟨k ++ ":", 0, lookupTag s k⟩) := by
  unfold initPartsToShow
  simp [List.contains, filterMap_some_eq_map]

/-- C8: the Expects part of the rendering shows exactly the expects entries
that are not also follows entries, while the record itself keeps the full
expects list (the Expects entry of the default view is built from
expectedPartsOf while the values of the Follows and Expects slices of the
record are untouched). -/
theorem c8_expects_display_suppresses_follows :
    ∀ (s : S) (x : String) (b : Bool),
      (x ∈ expectedPartsOf s ↔ (x ∈ s.expects ∧ ¬ x ∈ s.follows))
      ∧ (initPartsToShow ⟨[], [], b⟩ s)[4]? =
          some ⟨"Expects:", 0, expectedPartsOf s⟩ := by
  intro s x b
  constructor
  · unfold expectedPartsOf
    rw [List.mem_filter]
    simp [List.contains]
  · rw [initPartsToShow_default]
    simp

/-- C9: with both the parts set and the tags set empty, the rendering shows
exactly the name, the notes, the imports, the follows, the expects minus the
follows, and each tag key with its values (in sorted key order) — and no
path, tag name list or raw text entry; those three appear exactly when their
part is selected. -/
theorem c9_default_view_parts :
    ∀ (s : S) (b : Bool),
      (initPartsToShow ⟨[], [], b⟩ s =
        [⟨"", nameIndent, [s.name]⟩, ⟨"Note:", 0, s.docs⟩, ⟨"Imports:", 0, s.imports⟩,
         ⟨"Follows:", 0, s.follows⟩, ⟨"Expects:", 0, expectedPartsOf s⟩]
        ++ (getTagKeys s).map (fun k => ⟨k ++ ":", 0, lookupTag s k⟩))
      ∧ (initPartsToShow ⟨[PathPart], [], b⟩ s = [⟨"Pathname:", 0, [s.path]⟩])
      ∧ (initPartsToShow ⟨[TextPart], [], b⟩ s = [⟨"Text:", 0, s.text⟩])
      ∧ (initPartsToShow ⟨[TagPart], [], b⟩ s = [⟨"Tags:", 0, getTagKeys s⟩]) := by
  intro s b
  refine ⟨initPartsToShow_default b s, ?_, ?_, ?_⟩ <;>
    (unfold initPartsToShow
     simp [List.contains, NamePart, PathPart, TextPart, DocsPart, ImportPart,
       ExpectPart, FollowPart, TagPart, filterMap_none_eq_nil])

/-! ### Lemmas about the missing-expected-snippet validation -/

theorem check_foldl_eq (eb : List (String × List String)) (loc : List (String × String)) :
    ∀ (keys : List String) (acc : List ErrEntry),
      keys.foldl
        (fun errs k =>
          if (loc.map Prod.fst).contains k then errs
          else errs ++ [mkMissingEntry k (lookupEB eb k)]) acc =
      acc ++ (keys.filter (fun k => !((loc.map Prod.fst).contains k))).map
        (fun k => mkMissingEntry k (lookupEB eb k)) := by
  intro keys
  induction keys with
  | nil => intro acc; simp
  | cons k ks ih =>
    intro acc
    rw [List.foldl_cons, List.filter_cons]
    cases hk : (loc.map Prod.fst).contains k <;>
      simp [hk, ih, List.append_assoc]

/-- C10: with no constraint configured, checkExpectedSnippetsExist emits one
diagnostic per missing expected name (the sorted missing keys, each appearing
once since the map keys have no duplicates), in ascending name order, each
carrying all names that expected it; with any constraint configured, it emits
nothing. -/
theorem c10_missing_expected_diagnostics :
    ∀ (constraints : List String) (eb : List (String × List String))
      (loc : List (String × String)),
      (constraints ≠ [] → checkExpectedSnippetsExist constraints eb loc = [])
      ∧ (constraints = [] →
          (checkExpectedSnippetsExist constraints eb loc =
            (missingKeys eb loc).map (fun k => mkMissingEntry k (lookupEB eb k)))
          ∧ ((eb.map Prod.fst).Nodup → (missingKeys eb loc).Sorted sLtR)
          ∧ (∀ k, k ∈ missingKeys eb loc ↔
              (k ∈ eb.map Prod.fst ∧ ¬ k ∈ loc.map Prod.fst))) := by
  intro cons eb loc
  constructor
  · intro hne
    unfold checkExpectedSnippetsExist
    rw [if_pos (List.length_pos.mpr hne)]
  · intro hcons
    subst hcons
    refine ⟨?_, ?_, ?_⟩
    · unfold checkExpectedSnippetsExist missingKeys
      rw [if_neg (by simp)]
      simpa using check_foldl_eq eb loc (sortStrings (eb.map Prod.fst)) []
    · intro hnd
      unfold missingKeys
      have hsorted : (sortStrings (eb.map Prod.fst)).Sorted sLeR := sorted_sortStrings _
      have hnodup : (sortStrings (eb.map Prod.fst)).Nodup :=
        ((perm_sortStrings _).nodup_iff).mpr hnd
      have hlt : (sortStrings (eb.map Prod.fst)).Sorted sLtR :=
        (hsorted.and hnodup).imp (fun h => sLtR_of_le_ne h.1 h.2)
      exact hlt.filter _
    · intro k
      unfold missingKeys
      rw [List.mem_filter]
      simp [mem_sortStrings, List.contains]

/-- Witness for C10: two expected names, one found location, no constraints. -/
theorem c10_witness :
    checkExpectedSnippetsExist [] [("b", ["x"]), ("a", ["y"])] [("x", "d")] =
      (missingKeys [("b", ["x"]), ("a", ["y"])] [("x", "d")]).map
        (fun k => mkMissingEntry k (lookupEB [("b", ["x"]), ("a", ["y"])] k)) :=
  ((c10_missing_expected_diagnostics [] [("b", ["x"]), ("a", ["y"])] [("x", "d")]).2
    rfl).1
